import Mathlib

/-!
Verification development for the schema collection and merge engine of the
react-webmcp repository.

The definitions below are a shallow embedding of the TypeScript sources:

  - src/adapters/extractFields.ts   (tree extractor)
  - src/adapters/useSchemaCollector.ts (fingerprinting and three-way merge)
  - src/adapters/buildSchema.ts     (schema compiler)
  - src/adapters/validateSchema.ts  (validator)

Modelling conventions:
  - JavaScript primitive values appearing in enum options are modelled by
    the inductive type Prim (string, number, boolean); numbers are modelled
    as Int (the claims under study use only integral values).
  - A TypeScript optional attribute (possibly undefined) is an Option.
  - A JS Map and a JS object used as a record are modelled as an ordered
    association list; Map.set and property assignment update an existing
    key in place and append a fresh key at the end, which mapSet mirrors.
  - String.prototype.localeCompare and the default Array.prototype.sort
    comparator are modelled by code-point order on strings.
  - JSON.stringify on the small value shapes actually serialized by the
    source is modelled by the jsonOf* functions, with object keys emitted
    in the insertion order the source constructs them ( value before
    label for option pairs).
-/

namespace ReactWebMCP

/-- JavaScript primitive value: string, number or boolean. -/
inductive Prim where
  | str (s : String)
  | num (n : Int)
  | bool (b : Bool)
deriving DecidableEq, Repr

/-- Result of the JavaScript typeof operator on a Prim. -/
def primTypeName : Prim → String
  | .str _ => "string"
  | .num _ => "number"
  | .bool _ => "boolean"

/-- JavaScript String(v) conversion of a Prim. -/
def primToString : Prim → String
  | .str s => s
  | .num n => toString n
  | .bool b => if b then "true" else "false"

/-- JSON string escaping of a single character (the escapes JSON.stringify
emits for the character shapes exercised here). -/
def jsonEscapeChar (c : Char) : String :=
  if c = '\"' then "\\\""
  else if c = '\\' then "\\\\"
  else if c = '\n' then "\\n"
  else if c = '\t' then "\\t"
  else if c = '\r' then "\\r"
  else String.singleton c

/-- JSON string escaping. -/
def jsonEscape (s : String) : String :=
  String.join (s.data.map jsonEscapeChar)

/-- JSON.stringify of a primitive value. -/
def jsonOfPrim : Prim → String
  | .str s => "\"" ++ jsonEscape s ++ "\""
  | .num n => toString n
  | .bool b => if b then "true" else "false"

/-- JSON.stringify of an array of primitive values. -/
def jsonOfPrimList (l : List Prim) : String :=
  "[" ++ String.intercalate "," (l.map jsonOfPrim) ++ "]"

/-- One value/label option pair, as produced by extractOptions. -/
structure OptionPair where
  value : Prim
  label : String
deriving DecidableEq, Repr

/-- JSON.stringify of one option pair object; the source always constructs
these objects with value first and label second. -/
def jsonOfOptionPair (o : OptionPair) : String :=
  "\x7b\"value\":" ++ jsonOfPrim o.value ++ ",\"label\":" ++
    jsonOfPrim (Prim.str o.label) ++ "\x7d"

/-- JSON.stringify of an array of option pairs. -/
def jsonOfOneOf (l : List OptionPair) : String :=
  "[" ++ String.intercalate "," (l.map jsonOfOptionPair) ++ "]"

/-- FieldDefinition from src/adapters/types.ts: metadata for one tool
parameter. Every attribute other than name is optional. -/
structure FieldDefinition where
  name : String
  type : Option String := none
  required : Option Bool := none
  title : Option String := none
  description : Option String := none
  min : Option Int := none
  max : Option Int := none
  minLength : Option Int := none
  maxLength : Option Int := none
  pattern : Option String := none
  enumValues : Option (List Prim) := none
  oneOf : Option (List OptionPair) := none
deriving DecidableEq, Repr

/-- Partial FieldDefinition, the shape of one override-map entry; every
attribute including name may be absent. -/
structure FieldOverride where
  name : Option String := none
  type : Option String := none
  required : Option Bool := none
  title : Option String := none
  description : Option String := none
  min : Option Int := none
  max : Option Int := none
  minLength : Option Int := none
  maxLength : Option Int := none
  pattern : Option String := none
  enumValues : Option (List Prim) := none
  oneOf : Option (List OptionPair) := none
deriving DecidableEq, Repr

/-- Template-literal rendering of an optional string, with the nullish
fallback to the empty string used by the fingerprint template. -/
def optStr (o : Option String) : String := o.getD ""

/-- Template-literal rendering of an optional boolean. -/
def optBoolStr : Option Bool → String
  | none => ""
  | some b => if b then "true" else "false"

/-- Template-literal rendering of an optional number. -/
def optIntStr : Option Int → String
  | none => ""
  | some n => toString n

/-- fieldFingerprint from useRegisterField / fieldsFingerprint element
template in useSchemaCollector.ts: "::"-separated concatenation of the
tracked attributes, with JSON.stringify for the two array attributes. -/
def fieldFingerprint (f : FieldDefinition) : String :=
  f.name ++ "::" ++ optStr f.type ++ "::" ++ optBoolStr f.required ++ "::" ++
    optStr f.title ++ "::" ++ optStr f.description ++ "::" ++
    jsonOfPrimList (f.enumValues.getD []) ++ "::" ++
    jsonOfOneOf (f.oneOf.getD []) ++ "::" ++
    optIntStr f.min ++ "::" ++ optIntStr f.max ++ "::" ++
    optIntStr f.minLength ++ "::" ++ optIntStr f.maxLength ++ "::" ++
    optStr f.pattern

/-- fieldsFingerprint from useSchemaCollector.ts: per-element fingerprints
joined with "|". -/
def fieldsFingerprint (fields : List FieldDefinition) : String :=
  String.intercalate "|" (fields.map fieldFingerprint)

-- ---------------------------------------------------------------------------
-- Ordered string-keyed maps (JS Map / plain-object semantics)
-- ---------------------------------------------------------------------------

/-- Lookup in an ordered association list (Map.get). -/
def mapLookup {α : Type} : List (String × α) → String → Option α
  | [], _ => none
  | (k, v) :: rest, n => if k = n then some v else mapLookup rest n

/-- Map.set semantics on an ordered association list: an existing key is
updated in place, a fresh key is appended at the end. -/
def mapSet {α : Type} : List (String × α) → String → α → List (String × α)
  | [], k, v => [(k, v)]
  | (k', v') :: rest, k, v =>
      if k' = k then (k, v) :: rest else (k', v') :: mapSet rest k v

-- ---------------------------------------------------------------------------
-- Merge engine (useSchemaCollector.ts)
-- ---------------------------------------------------------------------------

/-- mergeField from useSchemaCollector.ts: copy every override attribute
that is not undefined onto a shallow copy of the base; arrays are replaced
wholesale. -/
def mergeField (base : FieldDefinition) (ov : FieldOverride) : FieldDefinition :=
  { name := ov.name.getD base.name
    type := ov.type <|> base.type
    required := ov.required <|> base.required
    title := ov.title <|> base.title
    description := ov.description <|> base.description
    min := ov.min <|> base.min
    max := ov.max <|> base.max
    minLength := ov.minLength <|> base.minLength
    maxLength := ov.maxLength <|> base.maxLength
    pattern := ov.pattern <|> base.pattern
    enumValues := ov.enumValues <|> base.enumValues
    oneOf := ov.oneOf <|> base.oneOf }

/-- View a full FieldDefinition as an override (source 3 entries are passed
to mergeField directly; exactly the defined attributes are copied). -/
def toOverride (f : FieldDefinition) : FieldOverride :=
  { name := some f.name
    type := f.type
    required := f.required
    title := f.title
    description := f.description
    min := f.min
    max := f.max
    minLength := f.minLength
    maxLength := f.maxLength
    pattern := f.pattern
    enumValues := f.enumValues
    oneOf := f.oneOf }

/-- Spread expression from useSchemaCollector.ts line 127: when an override
names a field absent from the map, a field is synthesized from the map key
and the override attributes; an explicit name attribute in the override
spreads after the key and wins. -/
def synthFromOverride (n : String) (o : FieldOverride) : FieldDefinition :=
  { name := o.name.getD n
    type := o.type
    required := o.required
    title := o.title
    description := o.description
    min := o.min
    max := o.max
    minLength := o.minLength
    maxLength := o.maxLength
    pattern := o.pattern
    enumValues := o.enumValues
    oneOf := o.oneOf }

/-- Ordered map from field name to field definition. -/
abbrev FieldMap := List (String × FieldDefinition)

/-- Step 1 of the merge: insert children-detected fields keyed by name. -/
def insertTreeFields : FieldMap → List FieldDefinition → FieldMap
  | m, [] => m
  | m, f :: rest => insertTreeFields (mapSet m f.name f) rest

/-- Step 2 of the merge: apply the fields-prop override map entry by entry. -/
def applyOverrides : FieldMap → List (String × FieldOverride) → FieldMap
  | m, [] => m
  | m, (n, o) :: rest =>
      applyOverrides
        (match mapLookup m n with
         | some existing => mapSet m n (mergeField existing o)
         | none => mapSet m n (synthFromOverride n o)) rest

/-- Step 3 of the merge: apply the context-registered field table. -/
def applyRegistered : FieldMap → List (String × FieldDefinition) → FieldMap
  | m, [] => m
  | m, (n, f) :: rest =>
      applyRegistered
        (match mapLookup m n with
         | some existing => mapSet m n (mergeField existing (toOverride f))
         | none => mapSet m n f) rest

/-- Body of the merged useMemo in useSchemaCollector.ts: three sources in
increasing priority, producing the name-keyed field map. -/
def computeMerged (tree : List FieldDefinition)
    (ov : List (String × FieldOverride))
    (reg : List (String × FieldDefinition)) : FieldMap :=
  applyRegistered (applyOverrides (insertTreeFields [] tree) ov) reg

/-- Array.from(fieldMap.values()): the merged field list handed to the
validator and the schema compiler. -/
def mergedFields (tree : List FieldDefinition)
    (ov : List (String × FieldOverride))
    (reg : List (String × FieldDefinition)) : List FieldDefinition :=
  (computeMerged tree ov reg).map Prod.snd

-- ---------------------------------------------------------------------------
-- Schema compiler (buildSchema.ts)
-- ---------------------------------------------------------------------------

/-- mapHtmlTypeToSchemaType from buildSchema.ts. -/
def mapHtmlTypeToSchemaType (htmlType : Option String) : String :=
  match htmlType with
  | some "number" => "number"
  | some "range" => "number"
  | some "checkbox" => "boolean"
  | _ => "string"

/-- One oneOf entry of a compiled property: an option pair rewritten as a
const/title object. -/
structure ConstTitle where
  const : Prim
  title : String
deriving DecidableEq, Repr

/-- One compiled property entry (JSONSchemaProperty from types.ts restricted
to the keys buildInputSchema actually writes, in its insertion order). -/
structure JSONSchemaProperty where
  type : String
  title : Option String := none
  description : Option String := none
  minimum : Option Int := none
  maximum : Option Int := none
  minLength : Option Int := none
  maxLength : Option Int := none
  pattern : Option String := none
  enum : Option (List Prim) := none
  oneOf : Option (List ConstTitle) := none
deriving DecidableEq, Repr

/-- The compiled schema document; properties is an ordered plain object. -/
structure JSONSchema where
  type : String
  properties : List (String × JSONSchemaProperty)
  required : Option (List String) := none
deriving DecidableEq, Repr

/-- JS truthiness gate used for title, description and pattern: only a
defined, non-empty string is copied. -/
def truthyStr : Option String → Option String
  | some s => if s = "" then none else some s
  | none => none

/-- Gate used for enumValues and oneOf: only a defined, non-empty array is
copied. -/
def nonEmptyList {α : Type} : Option (List α) → Option (List α)
  | some l => if l.length > 0 then some l else none
  | none => none

/-- The property entry built for one field by the loop body of
buildInputSchema. -/
def buildProp (f : FieldDefinition) : JSONSchemaProperty :=
  { type := mapHtmlTypeToSchemaType f.type
    title := truthyStr f.title
    description := truthyStr f.description
    minimum := f.min
    maximum := f.max
    minLength := f.minLength
    maxLength := f.maxLength
    pattern := truthyStr f.pattern
    enum := nonEmptyList f.enumValues
    oneOf := (nonEmptyList f.oneOf).map (fun l =>
      l.map (fun o => ConstTitle.mk o.value o.label)) }

/-- Sort of the field array by the localeCompare comparator on names;
localeCompare is modelled by code-point comparison, and insertionSort with
this relation is stable like Array.prototype.sort (an element is inserted
before another exactly when the comparator is non-positive). -/
def sortFields (fields : List FieldDefinition) : List FieldDefinition :=
  fields.insertionSort (fun a b => compare a.name b.name ≠ Ordering.gt)

/-- Default Array.prototype.sort on the required names. -/
def sortStrings (l : List String) : List String :=
  l.insertionSort (fun a b => compare a b ≠ Ordering.gt)

/-- Accumulation of the properties object: one assignment per sorted field. -/
def insertProps : List (String × JSONSchemaProperty) → List FieldDefinition →
    List (String × JSONSchemaProperty)
  | m, [] => m
  | m, f :: rest => insertProps (mapSet m f.name (buildProp f)) rest

/-- buildInputSchema from buildSchema.ts: sort, emit one property per field,
collect required names (the loop pushes f.name exactly when f.required is
truthy, so the accumulated list is the filter of the sorted fields), sort
required, and omit the required key when empty. -/
def buildInputSchema (fields : List FieldDefinition) : JSONSchema :=
  let sorted := sortFields fields
  let properties := insertProps [] sorted
  let required := (sorted.filter (fun f => f.required = some true)).map
    (fun f => f.name)
  { type := "object"
    properties := properties
    required := if required.length > 0 then some (sortStrings required) else none }

/-- Serialization of one compiled property, keys in insertion order. -/
def serializeProp (p : JSONSchemaProperty) : String :=
  let parts : List String :=
    ["\"type\":" ++ jsonOfPrim (Prim.str p.type)]
    ++ (match p.title with
        | some t => ["\"title\":" ++ jsonOfPrim (Prim.str t)]
        | none => [])
    ++ (match p.description with
        | some d => ["\"description\":" ++ jsonOfPrim (Prim.str d)]
        | none => [])
    ++ (match p.minimum with
        | some n => ["\"minimum\":" ++ toString n]
        | none => [])
    ++ (match p.maximum with
        | some n => ["\"maximum\":" ++ toString n]
        | none => [])
    ++ (match p.minLength with
        | some n => ["\"minLength\":" ++ toString n]
        | none => [])
    ++ (match p.maxLength with
        | some n => ["\"maxLength\":" ++ toString n]
        | none => [])
    ++ (match p.pattern with
        | some s => ["\"pattern\":" ++ jsonOfPrim (Prim.str s)]
        | none => [])
    ++ (match p.enum with
        | some l => ["\"enum\":" ++ jsonOfPrimList l]
        | none => [])
    ++ (match p.oneOf with
        | some l => ["\"oneOf\":[" ++ String.intercalate ","
            (l.map (fun c => "\x7b\"const\":" ++ jsonOfPrim c.const ++
              ",\"title\":" ++ jsonOfPrim (Prim.str c.title) ++ "\x7d")) ++ "]"]
        | none => [])
  "\x7b" ++ String.intercalate "," parts ++ "\x7d"

/-- JSON.stringify of the compiled schema document. -/
def serializeSchema (s : JSONSchema) : String :=
  "\x7b\"type\":" ++ jsonOfPrim (Prim.str s.type) ++ ",\"properties\":\x7b" ++
    String.intercalate ","
      (s.properties.map (fun kv =>
        jsonOfPrim (Prim.str kv.1) ++ ":" ++ serializeProp kv.2)) ++
    "\x7d" ++
    (match s.required with
     | some l => ",\"required\":[" ++
         String.intercalate "," (l.map (fun n => jsonOfPrim (Prim.str n))) ++ "]"
     | none => "") ++
    "\x7d"

-- ---------------------------------------------------------------------------
-- Validator (validateSchema.ts)
-- ---------------------------------------------------------------------------

/-- Duplicate-name issue text. -/
def dupMsg (n : String) : String :=
  "Duplicate field name \"" ++ n ++ "\"."

/-- Pattern-on-non-string issue text. -/
def patternMsg (n ty : String) : String :=
  "Field \"" ++ n ++ "\": pattern is only valid for string types, but type is \"" ++
    ty ++ "\"."

/-- min/max-on-non-number issue text. -/
def minMaxMsg (n ty : String) : String :=
  "Field \"" ++ n ++ "\": min/max are only valid for number types, but type is \"" ++
    ty ++ "\"."

/-- minLength/maxLength-on-non-string issue text. -/
def lenMsg (n ty : String) : String :=
  "Field \"" ++ n ++ "\": minLength/maxLength are only valid for string types, but type is \"" ++
    ty ++ "\"."

/-- Enum value type-mismatch issue text: the literal value via
JSON.stringify and the would-be compiled type. -/
def enumMsg (n : String) (v : Prim) (ty : String) : String :=
  "Field \"" ++ n ++ "\": enum value " ++ jsonOfPrim v ++ " is not a " ++ ty ++ "."

/-- The three independent typeof checks run for one enum value. -/
def enumValueIssues (nm st : String) (v : Prim) : List String :=
  (if st = "string" ∧ primTypeName v ≠ "string" then [enumMsg nm v "string"] else [])
  ++ (if st = "number" ∧ primTypeName v ≠ "number" then [enumMsg nm v "number"] else [])
  ++ (if st = "boolean" ∧ primTypeName v ≠ "boolean" then [enumMsg nm v "boolean"] else [])

/-- The enum scan of validateSchema for one field: guarded by a defined,
non-empty enumValues array, one pass of the three typeof checks per value. -/
def enumChecks (nm st : String) : Option (List Prim) → List String
  | some l => if l.length > 0 then l.flatMap (enumValueIssues nm st) else []
  | none => []

/-- The per-field consistency checks of validateSchema (everything except
the duplicate-name check, which needs the seen set). -/
def fieldChecks (f : FieldDefinition) : List String :=
  let st := mapHtmlTypeToSchemaType f.type
  (if f.pattern ≠ none ∧ st ≠ "string" then [patternMsg f.name st] else [])
  ++ (if (f.min ≠ none ∨ f.max ≠ none) ∧ st ≠ "number" then [minMaxMsg f.name st] else [])
  ++ (if (f.minLength ≠ none ∨ f.maxLength ≠ none) ∧ st ≠ "string"
      then [lenMsg f.name st] else [])
  ++ enumChecks f.name st f.enumValues

/-- The issue-accumulating loop of validateSchema, carrying the seen set. -/
def validateIssuesGo (seen : Finset String) : List FieldDefinition → List String
  | [] => []
  | f :: rest =>
      (if f.name ∈ seen then [dupMsg f.name] else []) ++ fieldChecks f ++
        validateIssuesGo (insert f.name seen) rest

/-- All issues accumulated by validateSchema for a field list. -/
def validateIssues (fields : List FieldDefinition) : List String :=
  validateIssuesGo ∅ fields

/-- Observable outcome of validateSchema: either a normal return carrying
the warnings emitted, or a raised Error message. -/
inductive ValidateResult where
  | ok (warnings : List String)
  | err (msg : String)
deriving DecidableEq, Repr

/-- validateSchema from validateSchema.ts. In production it is a no-op;
otherwise it accumulates all issues, then either raises on the first issue
(strict) or warns on every issue, always with the fixed library tag. -/
def validateSchema (production : Bool) (fields : List FieldDefinition)
    (strict : Bool) : ValidateResult :=
  if production then .ok []
  else
    let issues := validateIssues fields
    if strict then
      match issues with
      | [] => .ok []
      | i :: _ => .err ("[react-webmcp] " ++ i)
    else .ok (issues.map (fun i => "[react-webmcp] " ++ i))

-- ---------------------------------------------------------------------------
-- Tree extractor (extractFields.ts)
-- ---------------------------------------------------------------------------

mutual
/-- A React child node: a valid element carrying a property bag, a text
node, or null/undefined/boolean content (skipped by isValidElement). The
element property bag is flattened into the constructor: the direct name,
the nested inputProps.name, the doubly nested slotProps.input.name, the
constraint props read by extractFields, the value prop read by
extractOptions, and the children prop. -/
inductive RNode : Type where
  | element (name inputPropsName slotInputName ty : Option String)
      (required : Option Bool) (minv maxv minLen maxLen : Option Int)
      (pattern : Option String) (value : Option Prim)
      (children : Children) : RNode
  | text (s : String) : RNode
  | nullNode : RNode

/-- The children prop of an element: absent, a plain string (the case the
label derivation tests with typeof), or a list of nodes. -/
inductive Children : Type where
  | cnone : Children
  | cstr (s : String) : Children
  | cnodes (l : List RNode) : Children
end

/-- JS truthiness of the children prop: undefined and the empty string are
falsy; any array (even empty) is truthy. -/
def childrenTruthy : Children → Bool
  | .cnone => false
  | .cstr s => s ≠ ""
  | .cnodes _ => true

/-- Label of an option node: the literal string children if the children
prop is a plain string, otherwise String(value). -/
def labelOf (ch : Children) (v : Prim) : String :=
  match ch with
  | .cstr s => s
  | _ => primToString v

mutual
/-- extractOptions from extractFields.ts over a children value;
React.Children.toArray of a plain string yields one text child and of an
array yields its nodes, and non-element children are skipped, so only the
cnodes case can produce options. -/
def extractOptionsC : Children → List OptionPair
  | .cnone => []
  | .cstr _ => []
  | .cnodes l => extractOptionsL l

/-- Loop body of extractOptions: a node with a non-nullish value prop emits
one pair, and every node with truthy children is recursed into (a
value-bearing node may still contain nested value-bearing descendants). -/
def extractOptionsL : List RNode → List OptionPair
  | [] => []
  | RNode.element _ _ _ _ _ _ _ _ _ _ v ch :: rest =>
      ((match v with
        | some pv => [OptionPair.mk pv (labelOf ch pv)]
        | none => []) ++
       (if childrenTruthy ch then extractOptionsC ch else [])) ++ extractOptionsL rest
  | _ :: rest => extractOptionsL rest
end

/-- The FieldDefinition built for one named element by extractFields: the
constraint props that are present are copied, and when option-bearing
descendants exist both enumValues (projected values) and oneOf (the pairs)
are set together. -/
def mkFieldFrom (nm : String) (ty : Option String) (rq : Option Bool)
    (mi ma mil mal : Option Int) (pat : Option String)
    (opts : List OptionPair) : FieldDefinition :=
  { name := nm
    type := ty
    required := rq
    min := mi
    max := ma
    minLength := mil
    maxLength := mal
    pattern := pat
    enumValues := if opts.length > 0 then some (opts.map (fun o => o.value)) else none
    oneOf := if opts.length > 0 then some opts else none }

mutual
/-- extractFields from extractFields.ts over a children value. -/
def extractFieldsC : Children → List FieldDefinition
  | .cnone => []
  | .cstr _ => []
  | .cnodes l => extractFieldsL l

/-- Loop body of extractFields: the name is resolved by the nullish chain
props.name then inputProps.name then slotProps.input.name; a truthy name
makes the node a leaf emitting one field (with options scanned from its
children), and a falsy name with truthy children recurses. -/
def extractFieldsL : List RNode → List FieldDefinition
  | [] => []
  | RNode.element nm ipn sin ty rq mi ma mil mal pat _ ch :: rest =>
      (match nm <|> ipn <|> sin with
       | some s =>
           if s = "" then
             (if childrenTruthy ch then extractFieldsC ch else [])
           else
             [mkFieldFrom s ty rq mi ma mil mal pat
               (if childrenTruthy ch then extractOptionsC ch else [])]
       | none => if childrenTruthy ch then extractFieldsC ch else []) ++
        extractFieldsL rest
  | _ :: rest => extractFieldsL rest
end

-- ---------------------------------------------------------------------------
-- Fingerprint-gated recomputation (useSchemaCollector.ts useMemo)
-- ---------------------------------------------------------------------------

/-- The dependency tuple of the merged useMemo in useSchemaCollector.ts:
the children fingerprint string, the fields-prop reference (compared by
Object.is, modelled as a reference token), the registration version
counter, and the strict flag. -/
structure CollectorDeps where
  childrenFP : String
  fieldsPropRef : Nat
  version : Nat
  strict : Bool
deriving DecidableEq, Repr

/-- One render step of a useMemo cell: the cached value is returned when
the dependency tuple is unchanged, otherwise the factory runs; the Bool
reports whether a recomputation happened. -/
def useMemoStep {α : Type} (prev : Option (CollectorDeps × α))
    (deps : CollectorDeps) (factory : Unit → α) : (CollectorDeps × α) × Bool :=
  match prev with
  | some (d, v) => if d = deps then ((d, v), false) else ((deps, factory ()), true)
  | none => ((deps, factory ()), true)

/-- The oneOf/enumValues coupling invariant of the spec: wherever oneOf is
present, enumValues is exactly the projection of its value components. -/
def fieldConsistent (f : FieldDefinition) : Prop :=
  ∀ l, f.oneOf = some l → f.enumValues = some (l.map (fun o => o.value))

/-- An override respects the coupling when it sets oneOf and enumValues
together and consistently, or touches neither. -/
def overrideConsistent (o : FieldOverride) : Prop :=
  (o.oneOf = none ∧ o.enumValues = none) ∨
    (∃ l, o.oneOf = some l ∧ o.enumValues = some (l.map (fun p => p.value)))

-- ===========================================================================
-- Lemmas
-- ===========================================================================

theorem mapLookup_mapSet_self {α : Type} (m : List (String × α)) (k : String)
    (v : α) : mapLookup (mapSet m k v) k = some v := by
  induction m with
  | nil => simp [mapSet, mapLookup]
  | cons hd tl ih =>
      obtain ⟨k0, v0⟩ := hd
      by_cases h : k0 = k <;> simp [mapSet, mapLookup, h, ih]

theorem mapLookup_mapSet_ne {α : Type} (m : List (String × α)) {k k' : String}
    (v : α) (h : k' ≠ k) : mapLookup (mapSet m k v) k' = mapLookup m k' := by
  have hk : ¬ k = k' := fun hh => h hh.symm
  induction m with
  | nil => simp [mapSet, mapLookup, hk]
  | cons hd tl ih =>
      obtain ⟨k0, v0⟩ := hd
      by_cases h0 : k0 = k
      · subst h0
        simp [mapSet, mapLookup, hk]
      · simp only [mapSet, if_neg h0]
        by_cases h1 : k0 = k'
        · simp [mapLookup, h1]
        · simp [mapLookup, h1, ih]

theorem mapLookup_mapSet_ne_none {α : Type} (m : List (String × α))
    (k k' : String) (v : α) :
    mapLookup (mapSet m k v) k' ≠ none ↔ k' = k ∨ mapLookup m k' ≠ none := by
  by_cases h : k' = k
  · subst h; simp [mapLookup_mapSet_self]
  · simp [mapLookup_mapSet_ne m v h, h]

theorem mapLookup_mem {α : Type} {m : List (String × α)} {k : String} {v : α}
    (h : mapLookup m k = some v) : (k, v) ∈ m := by
  induction m with
  | nil => simp [mapLookup] at h
  | cons hd tl ih =>
      obtain ⟨k0, v0⟩ := hd
      by_cases h0 : k0 = k
      · subst h0
        simp [mapLookup] at h
        simp [h]
      · simp [mapLookup, h0] at h
        exact List.mem_cons_of_mem _ (ih h)

theorem mem_mapSet {α : Type} {m : List (String × α)} {k : String} {v : α}
    {p : String × α} (h : p ∈ mapSet m k v) : p = (k, v) ∨ p ∈ m := by
  induction m with
  | nil => simpa [mapSet] using h
  | cons hd tl ih =>
      obtain ⟨k0, v0⟩ := hd
      by_cases h0 : k0 = k
      · subst h0
        rcases (by simpa [mapSet] using h : p = (k0, v) ∨ p ∈ tl) with h1 | h1
        · exact Or.inl h1
        · exact Or.inr (List.mem_cons_of_mem _ h1)
      · rcases (by simpa [mapSet, h0] using h : p = (k0, v0) ∨ p ∈ mapSet tl k v) with h1 | h1
        · exact Or.inr (by simp [h1])
        · rcases ih h1 with h2 | h2
          · exact Or.inl h2
          · exact Or.inr (List.mem_cons_of_mem _ h2)

theorem insertTreeFields_lookup_untouched :
    ∀ (tree : List FieldDefinition) (m : FieldMap) (n : String),
      (∀ f ∈ tree, f.name ≠ n) →
      mapLookup (insertTreeFields m tree) n = mapLookup m n := by
  intro tree
  induction tree with
  | nil => intro m n _; rfl
  | cons f rest ih =>
      intro m n h
      have hf : f.name ≠ n := h f (by simp)
      show mapLookup (insertTreeFields (mapSet m f.name f) rest) n = mapLookup m n
      rw [ih _ n (fun g hg => h g (List.mem_cons_of_mem _ hg))]
      exact mapLookup_mapSet_ne m f (Ne.symm hf)

theorem insertTreeFields_lookup_mem :
    ∀ (tree : List FieldDefinition) (m : FieldMap) {n : String}
      {tf : FieldDefinition}, tf ∈ tree → tf.name = n →
      (tree.map FieldDefinition.name).Nodup →
      mapLookup (insertTreeFields m tree) n = some tf := by
  intro tree
  induction tree with
  | nil => intro m n tf h; cases h
  | cons f rest ih =>
      intro m n tf htf hname hnd
      have hnotin : f.name ∉ rest.map FieldDefinition.name :=
        (List.nodup_cons.mp hnd).1
      have hnd' : (rest.map FieldDefinition.name).Nodup := (List.nodup_cons.mp hnd).2
      rcases List.mem_cons.mp htf with heq | hmem
      · subst heq
        have hrest : ∀ g ∈ rest, g.name ≠ n := by
          intro g hg hgn
          have hmm : g.name ∈ rest.map FieldDefinition.name :=
            List.mem_map_of_mem _ hg
          rw [hgn, ← hname] at hmm
          exact hnotin hmm
        show mapLookup (insertTreeFields (mapSet m tf.name tf) rest) n = some tf
        rw [insertTreeFields_lookup_untouched rest _ n hrest, ← hname]
        exact mapLookup_mapSet_self m tf.name tf
      · show mapLookup (insertTreeFields (mapSet m f.name f) rest) n = some tf
        exact ih _ hmem hname hnd'

theorem insertTreeFields_ne_none :
    ∀ (tree : List FieldDefinition) (m : FieldMap) (n : String),
      mapLookup (insertTreeFields m tree) n ≠ none ↔
        (∃ f ∈ tree, f.name = n) ∨ mapLookup m n ≠ none := by
  intro tree
  induction tree with
  | nil => intro m n; simp [insertTreeFields]
  | cons f rest ih =>
      intro m n
      show mapLookup (insertTreeFields (mapSet m f.name f) rest) n ≠ none ↔ _
      rw [ih]
      rw [mapLookup_mapSet_ne_none]
      constructor
      · rintro (⟨g, hg, hgn⟩ | hn | hm)
        · exact Or.inl ⟨g, List.mem_cons_of_mem _ hg, hgn⟩
        · exact Or.inl ⟨f, by simp, hn.symm⟩
        · exact Or.inr hm
      · rintro (⟨g, hg, hgn⟩ | hm)
        · rcases List.mem_cons.mp hg with heq | hmem
          · subst heq; exact Or.inr (Or.inl hgn.symm)
          · exact Or.inl ⟨g, hmem, hgn⟩
        · exact Or.inr (Or.inr hm)

theorem applyOverrides_lookup_untouched :
    ∀ (ov : List (String × FieldOverride)) (m : FieldMap) (n : String),
      (∀ p ∈ ov, p.1 ≠ n) →
      mapLookup (applyOverrides m ov) n = mapLookup m n := by
  intro ov
  induction ov with
  | nil => intro m n _; rfl
  | cons p rest ih =>
      intro m n h
      obtain ⟨k, o⟩ := p
      have hk : k ≠ n := h (k, o) (by simp)
      show mapLookup (applyOverrides
        (match mapLookup m k with
         | some existing => mapSet m k (mergeField existing o)
         | none => mapSet m k (synthFromOverride k o)) rest) n = mapLookup m n
      rw [ih _ n (fun q hq => h q (List.mem_cons_of_mem _ hq))]
      cases hm : mapLookup m k
      · exact mapLookup_mapSet_ne m _ (Ne.symm hk)
      · exact mapLookup_mapSet_ne m _ (Ne.symm hk)

theorem applyOverrides_lookup_mem :
    ∀ (ov : List (String × FieldOverride)) (m : FieldMap) {n : String}
      {o : FieldOverride}, (n, o) ∈ ov → (ov.map Prod.fst).Nodup →
      mapLookup (applyOverrides m ov) n =
        some (match mapLookup m n with
              | some existing => mergeField existing o
              | none => synthFromOverride n o) := by
  intro ov
  induction ov with
  | nil => intro m n o h; cases h
  | cons p rest ih =>
      intro m n o hmem hnd
      obtain ⟨k, q⟩ := p
      have hnotin : k ∉ rest.map Prod.fst := (List.nodup_cons.mp hnd).1
      have hnd' : (rest.map Prod.fst).Nodup := (List.nodup_cons.mp hnd).2
      rcases List.mem_cons.mp hmem with heq | hmem'
      · rw [Prod.mk.injEq] at heq
        obtain ⟨h1, h2⟩ := heq
        subst h1; subst h2
        have hrest : ∀ r ∈ rest, r.1 ≠ n := by
          intro r hr hrn
          exact hnotin (hrn ▸ List.mem_map_of_mem _ hr)
        show mapLookup (applyOverrides
          (match mapLookup m n with
           | some existing => mapSet m n (mergeField existing o)
           | none => mapSet m n (synthFromOverride n o)) rest) n = _
        rw [applyOverrides_lookup_untouched rest _ n hrest]
        cases hm : mapLookup m n
        · exact mapLookup_mapSet_self m n _
        · exact mapLookup_mapSet_self m n _
      · have hkn : k ≠ n := by
          intro hkn
          apply hnotin
          rw [hkn]
          exact List.mem_map_of_mem _ hmem'
        show mapLookup (applyOverrides
          (match mapLookup m k with
           | some existing => mapSet m k (mergeField existing q)
           | none => mapSet m k (synthFromOverride k q)) rest) n = _
        have hpres : ∀ (m' : FieldMap), mapLookup m' n = mapLookup m n →
            mapLookup (applyOverrides m' rest) n =
              some (match mapLookup m n with
                    | some existing => mergeField existing o
                    | none => synthFromOverride n o) := by
          intro m' hpres
          rw [ih m' hmem' hnd', hpres]
        cases hm : mapLookup m k
        · exact hpres _ (mapLookup_mapSet_ne m _ (Ne.symm hkn))
        · exact hpres _ (mapLookup_mapSet_ne m _ (Ne.symm hkn))

theorem applyOverrides_ne_none :
    ∀ (ov : List (String × FieldOverride)) (m : FieldMap) (n : String),
      mapLookup (applyOverrides m ov) n ≠ none ↔
        (∃ o, (n, o) ∈ ov) ∨ mapLookup m n ≠ none := by
  intro ov
  induction ov with
  | nil => intro m n; simp [applyOverrides]
  | cons p rest ih =>
      intro m n
      obtain ⟨k, q⟩ := p
      show mapLookup (applyOverrides
        (match mapLookup m k with
         | some existing => mapSet m k (mergeField existing q)
         | none => mapSet m k (synthFromOverride k q)) rest) n ≠ none ↔ _
      have hstep : ∀ (v : FieldDefinition),
          (mapLookup (applyOverrides (mapSet m k v) rest) n ≠ none ↔
            (∃ o, (n, o) ∈ rest) ∨ (n = k ∨ mapLookup m n ≠ none)) := by
        intro v
        rw [ih, mapLookup_mapSet_ne_none]
      have hgoal : mapLookup (applyOverrides
          (match mapLookup m k with
           | some existing => mapSet m k (mergeField existing q)
           | none => mapSet m k (synthFromOverride k q)) rest) n ≠ none ↔
          (∃ o, (n, o) ∈ rest) ∨ (n = k ∨ mapLookup m n ≠ none) := by
        cases hm : mapLookup m k
        · exact hstep _
        · exact hstep _
      rw [hgoal]
      constructor
      · rintro (⟨o, ho⟩ | hk | hm)
        · exact Or.inl ⟨o, List.mem_cons_of_mem _ ho⟩
        · exact Or.inl ⟨q, by simp [hk]⟩
        · exact Or.inr hm
      · rintro (⟨o, ho⟩ | hm)
        · rcases List.mem_cons.mp ho with heq | hmem
          · exact Or.inr (Or.inl (Prod.ext_iff.mp heq).1)
          · exact Or.inl ⟨o, hmem⟩
        · exact Or.inr (Or.inr hm)

theorem applyRegistered_lookup_untouched :
    ∀ (reg : List (String × FieldDefinition)) (m : FieldMap) (n : String),
      (∀ p ∈ reg, p.1 ≠ n) →
      mapLookup (applyRegistered m reg) n = mapLookup m n := by
  intro reg
  induction reg with
  | nil => intro m n _; rfl
  | cons p rest ih =>
      intro m n h
      obtain ⟨k, f⟩ := p
      have hk : k ≠ n := h (k, f) (by simp)
      show mapLookup (applyRegistered
        (match mapLookup m k with
         | some existing => mapSet m k (mergeField existing (toOverride f))
         | none => mapSet m k f) rest) n = mapLookup m n
      rw [ih _ n (fun q hq => h q (List.mem_cons_of_mem _ hq))]
      cases hm : mapLookup m k
      · exact mapLookup_mapSet_ne m _ (Ne.symm hk)
      · exact mapLookup_mapSet_ne m _ (Ne.symm hk)

theorem applyRegistered_lookup_mem :
    ∀ (reg : List (String × FieldDefinition)) (m : FieldMap) {n : String}
      {rf : FieldDefinition}, (n, rf) ∈ reg → (reg.map Prod.fst).Nodup →
      mapLookup (applyRegistered m reg) n =
        some (match mapLookup m n with
              | some existing => mergeField existing (toOverride rf)
              | none => rf) := by
  intro reg
  induction reg with
  | nil => intro m n rf h; cases h
  | cons p rest ih =>
      intro m n rf hmem hnd
      obtain ⟨k, q⟩ := p
      have hnotin : k ∉ rest.map Prod.fst := (List.nodup_cons.mp hnd).1
      have hnd' : (rest.map Prod.fst).Nodup := (List.nodup_cons.mp hnd).2
      rcases List.mem_cons.mp hmem with heq | hmem'
      · rw [Prod.mk.injEq] at heq
        obtain ⟨h1, h2⟩ := heq
        subst h1; subst h2
        have hrest : ∀ r ∈ rest, r.1 ≠ n := by
          intro r hr hrn
          exact hnotin (hrn ▸ List.mem_map_of_mem _ hr)
        show mapLookup (applyRegistered
          (match mapLookup m n with
           | some existing => mapSet m n (mergeField existing (toOverride rf))
           | none => mapSet m n rf) rest) n = _
        rw [applyRegistered_lookup_untouched rest _ n hrest]
        cases hm : mapLookup m n
        · exact mapLookup_mapSet_self m n _
        · exact mapLookup_mapSet_self m n _
      · have hkn : k ≠ n := by
          intro hkn
          apply hnotin
          rw [hkn]
          exact List.mem_map_of_mem _ hmem'
        show mapLookup (applyRegistered
          (match mapLookup m k with
           | some existing => mapSet m k (mergeField existing (toOverride q))
           | none => mapSet m k q) rest) n = _
        have hpres : ∀ (m' : FieldMap), mapLookup m' n = mapLookup m n →
            mapLookup (applyRegistered m' rest) n =
              some (match mapLookup m n with
                    | some existing => mergeField existing (toOverride rf)
                    | none => rf) := by
          intro m' hpres
          rw [ih m' hmem' hnd', hpres]
        cases hm : mapLookup m k
        · exact hpres _ (mapLookup_mapSet_ne m _ (Ne.symm hkn))
        · exact hpres _ (mapLookup_mapSet_ne m _ (Ne.symm hkn))

theorem applyRegistered_ne_none :
    ∀ (reg : List (String × FieldDefinition)) (m : FieldMap) (n : String),
      mapLookup (applyRegistered m reg) n ≠ none ↔
        (∃ f, (n, f) ∈ reg) ∨ mapLookup m n ≠ none := by
  intro reg
  induction reg with
  | nil => intro m n; simp [applyRegistered]
  | cons p rest ih =>
      intro m n
      obtain ⟨k, q⟩ := p
      show mapLookup (applyRegistered
        (match mapLookup m k with
         | some existing => mapSet m k (mergeField existing (toOverride q))
         | none => mapSet m k q) rest) n ≠ none ↔ _
      have hstep : ∀ (v : FieldDefinition),
          (mapLookup (applyRegistered (mapSet m k v) rest) n ≠ none ↔
            (∃ f, (n, f) ∈ rest) ∨ (n = k ∨ mapLookup m n ≠ none)) := by
        intro v
        rw [ih, mapLookup_mapSet_ne_none]
      have hgoal : mapLookup (applyRegistered
          (match mapLookup m k with
           | some existing => mapSet m k (mergeField existing (toOverride q))
           | none => mapSet m k q) rest) n ≠ none ↔
          (∃ f, (n, f) ∈ rest) ∨ (n = k ∨ mapLookup m n ≠ none) := by
        cases hm : mapLookup m k
        · exact hstep _
        · exact hstep _
      rw [hgoal]
      constructor
      · rintro (⟨f, hf⟩ | hk | hm)
        · exact Or.inl ⟨f, List.mem_cons_of_mem _ hf⟩
        · exact Or.inl ⟨q, by simp [hk]⟩
        · exact Or.inr hm
      · rintro (⟨f, hf⟩ | hm)
        · rcases List.mem_cons.mp hf with heq | hmem
          · exact Or.inr (Or.inl (Prod.ext_iff.mp heq).1)
          · exact Or.inl ⟨f, hmem⟩
        · exact Or.inr (Or.inr hm)

instance instIsTotalFieldCmp :
    IsTotal FieldDefinition (fun a b => compare a.name b.name ≠ Ordering.gt) :=
  ⟨fun a b => by
    rcases le_total a.name b.name with h | h
    · exact Or.inl (compare_le_iff_le.mpr h)
    · exact Or.inr (compare_le_iff_le.mpr h)⟩

instance instIsTransFieldCmp :
    IsTrans FieldDefinition (fun a b => compare a.name b.name ≠ Ordering.gt) :=
  ⟨fun _ _ _ h1 h2 =>
    compare_le_iff_le.mpr (le_trans (compare_le_iff_le.mp h1) (compare_le_iff_le.mp h2))⟩

instance instIsTotalStrCmp :
    IsTotal String (fun a b => compare a b ≠ Ordering.gt) :=
  ⟨fun a b => by
    rcases le_total a b with h | h
    · exact Or.inl (compare_le_iff_le.mpr h)
    · exact Or.inr (compare_le_iff_le.mpr h)⟩

instance instIsTransStrCmp :
    IsTrans String (fun a b => compare a b ≠ Ordering.gt) :=
  ⟨fun _ _ _ h1 h2 =>
    compare_le_iff_le.mpr (le_trans (compare_le_iff_le.mp h1) (compare_le_iff_le.mp h2))⟩

instance instIsAntisymmFieldLtName :
    IsAntisymm FieldDefinition (fun a b => a.name < b.name) :=
  ⟨fun _ _ h1 h2 => absurd (lt_trans h1 h2) (lt_irrefl _)⟩

theorem sortFields_perm (l : List FieldDefinition) : (sortFields l).Perm l :=
  List.perm_insertionSort _ l

theorem sortFields_sorted (l : List FieldDefinition) :
    List.Sorted (fun a b => compare a.name b.name ≠ Ordering.gt) (sortFields l) :=
  List.sorted_insertionSort _ l

theorem sortFields_sorted_names (l : List FieldDefinition) :
    List.Sorted (· ≤ ·) ((sortFields l).map FieldDefinition.name) :=
  List.pairwise_map.mpr ((sortFields_sorted l).imp fun h => compare_le_iff_le.mp h)

theorem sortFields_eq_of_perm {l1 l2 : List FieldDefinition} (hp : l1.Perm l2)
    (hnd : (l1.map FieldDefinition.name).Nodup) : sortFields l1 = sortFields l2 := by
  have hnd1 : ((sortFields l1).map FieldDefinition.name).Nodup :=
    ((sortFields_perm l1).symm.map FieldDefinition.name).nodup hnd
  have hnd2 : ((sortFields l2).map FieldDefinition.name).Nodup :=
    (((sortFields_perm l2).trans hp.symm).symm.map FieldDefinition.name).nodup hnd
  have hpair1 : List.Pairwise (fun a b : FieldDefinition => a.name < b.name)
      (sortFields l1) := by
    have hne : List.Pairwise (fun a b : FieldDefinition => a.name ≠ b.name)
        (sortFields l1) := List.pairwise_map.mp hnd1
    exact ((sortFields_sorted l1).and hne).imp
      (fun h => lt_of_le_of_ne (compare_le_iff_le.mp h.1) h.2)
  have hpair2 : List.Pairwise (fun a b : FieldDefinition => a.name < b.name)
      (sortFields l2) := by
    have hne : List.Pairwise (fun a b : FieldDefinition => a.name ≠ b.name)
        (sortFields l2) := List.pairwise_map.mp hnd2
    exact ((sortFields_sorted l2).and hne).imp
      (fun h => lt_of_le_of_ne (compare_le_iff_le.mp h.1) h.2)
  exact List.eq_of_perm_of_sorted
    ((sortFields_perm l1).trans (hp.trans (sortFields_perm l2).symm)) hpair1 hpair2

theorem sortStrings_sorted (l : List String) :
    List.Sorted (· ≤ ·) (sortStrings l) :=
  (List.sorted_insertionSort _ l).imp fun h => compare_le_iff_le.mp h

theorem mapSet_of_lookup_none {α : Type} :
    ∀ (m : List (String × α)) (k : String) (v : α),
      mapLookup m k = none → mapSet m k v = m ++ [(k, v)] := by
  intro m
  induction m with
  | nil => intro k v _; rfl
  | cons hd tl ih =>
      intro k v h
      obtain ⟨k0, v0⟩ := hd
      by_cases h0 : k0 = k
      · rw [mapLookup, if_pos h0] at h
        cases h
      · rw [mapLookup, if_neg h0] at h
        show (if k0 = k then _ else (k0, v0) :: mapSet tl k v) = _
        rw [if_neg h0, ih k v h]
        rfl

theorem mapLookup_append_of_none {α : Type} :
    ∀ (m m2 : List (String × α)) (k : String),
      mapLookup m k = none → mapLookup (m ++ m2) k = mapLookup m2 k := by
  intro m
  induction m with
  | nil => intro m2 k _; rfl
  | cons hd tl ih =>
      intro m2 k h
      obtain ⟨k0, v0⟩ := hd
      by_cases h0 : k0 = k
      · rw [mapLookup, if_pos h0] at h
        cases h
      · rw [mapLookup, if_neg h0] at h
        show mapLookup ((k0, v0) :: (tl ++ m2)) k = _
        rw [mapLookup, if_neg h0, ih m2 k h]

theorem insertProps_eq_map :
    ∀ (l : List FieldDefinition) (m : List (String × JSONSchemaProperty)),
      (∀ f ∈ l, mapLookup m f.name = none) →
      (l.map FieldDefinition.name).Nodup →
      insertProps m l = m ++ l.map (fun f => (f.name, buildProp f)) := by
  intro l
  induction l with
  | nil => intro m _ _; simp [insertProps]
  | cons f rest ih =>
      intro m hnone hnd
      have hf : mapLookup m f.name = none := hnone f (by simp)
      have hnotin : f.name ∉ rest.map FieldDefinition.name :=
        (List.nodup_cons.mp hnd).1
      show insertProps (mapSet m f.name (buildProp f)) rest = _
      rw [mapSet_of_lookup_none m f.name (buildProp f) hf, ih]
      · simp
      · intro g hg
        rw [mapLookup_append_of_none _ _ _ (hnone g (List.mem_cons_of_mem _ hg))]
        have hgne : ¬ f.name = g.name := by
          intro hx
          exact hnotin (hx ▸ List.mem_map_of_mem _ hg)
        simp [mapLookup, hgne]
      · exact (List.nodup_cons.mp hnd).2

theorem buildInputSchema_properties_eq (fields : List FieldDefinition)
    (hnd : (fields.map FieldDefinition.name).Nodup) :
    (buildInputSchema fields).properties =
      (sortFields fields).map (fun f => (f.name, buildProp f)) := by
  show insertProps [] (sortFields fields) = _
  rw [insertProps_eq_map]
  · rfl
  · intro f _; rfl
  · exact ((sortFields_perm fields).symm.map FieldDefinition.name).nodup hnd

-- Consistency preservation through the merge (claim C5 support)

theorem mergeField_consistent {base : FieldDefinition} {ov : FieldOverride}
    (hb : fieldConsistent base) (ho : overrideConsistent ov) :
    fieldConsistent (mergeField base ov) := by
  intro l hl
  rcases ho with ⟨h1, h2⟩ | ⟨l0, h1, h2⟩
  · simp only [mergeField, h1, h2, Option.none_orElse] at hl ⊢
    exact hb l hl
  · simp only [mergeField, h1, h2, Option.some_orElse] at hl ⊢
    cases hl
    rfl

theorem synthFromOverride_consistent {o : FieldOverride} (n : String)
    (ho : overrideConsistent o) : fieldConsistent (synthFromOverride n o) := by
  intro l hl
  rcases ho with ⟨h1, h2⟩ | ⟨l0, h1, h2⟩
  · simp only [synthFromOverride, h1] at hl
    cases hl
  · simp only [synthFromOverride, h1, h2] at hl ⊢
    cases hl
    rfl

theorem fieldConsistent_of_overrideConsistent {f : FieldDefinition}
    (h : overrideConsistent (toOverride f)) : fieldConsistent f := by
  intro l hl
  rcases h with ⟨h1, h2⟩ | ⟨l0, h1, h2⟩
  · rw [show (toOverride f).oneOf = f.oneOf from rfl] at h1
    rw [h1] at hl
    cases hl
  · rw [show (toOverride f).oneOf = f.oneOf from rfl] at h1
    rw [h1] at hl
    cases hl
    exact h2

/-- Every value of the merged map satisfies the coupling invariant. -/
def mapConsistent (m : FieldMap) : Prop := ∀ p ∈ m, fieldConsistent p.2

theorem mapConsistent_mapSet {m : FieldMap} {k : String} {v : FieldDefinition}
    (hm : mapConsistent m) (hv : fieldConsistent v) :
    mapConsistent (mapSet m k v) := by
  intro p hp
  rcases mem_mapSet hp with h | h
  · rw [h]; exact hv
  · exact hm p h

theorem mapConsistent_lookup {m : FieldMap} {k : String} {v : FieldDefinition}
    (hm : mapConsistent m) (h : mapLookup m k = some v) : fieldConsistent v :=
  hm (k, v) (mapLookup_mem h)

theorem insertTreeFields_consistent :
    ∀ (tree : List FieldDefinition) (m : FieldMap), mapConsistent m →
      (∀ f ∈ tree, fieldConsistent f) →
      mapConsistent (insertTreeFields m tree) := by
  intro tree
  induction tree with
  | nil => intro m hm _; exact hm
  | cons f rest ih =>
      intro m hm htree
      exact ih _ (mapConsistent_mapSet hm (htree f (by simp)))
        (fun g hg => htree g (List.mem_cons_of_mem _ hg))

theorem applyOverrides_consistent :
    ∀ (ov : List (String × FieldOverride)) (m : FieldMap), mapConsistent m →
      (∀ p ∈ ov, overrideConsistent p.2) →
      mapConsistent (applyOverrides m ov) := by
  intro ov
  induction ov with
  | nil => intro m hm _; exact hm
  | cons p rest ih =>
      intro m hm hov
      obtain ⟨k, o⟩ := p
      have ho : overrideConsistent o := hov (k, o) (by simp)
      have hrest : ∀ q ∈ rest, overrideConsistent q.2 :=
        fun q hq => hov q (List.mem_cons_of_mem _ hq)
      show mapConsistent (applyOverrides
        (match mapLookup m k with
         | some existing => mapSet m k (mergeField existing o)
         | none => mapSet m k (synthFromOverride k o)) rest)
      cases hl : mapLookup m k with
      | some existing =>
          exact ih _ (mapConsistent_mapSet hm
            (mergeField_consistent (mapConsistent_lookup hm hl) ho)) hrest
      | none =>
          exact ih _ (mapConsistent_mapSet hm
            (synthFromOverride_consistent k ho)) hrest

theorem applyRegistered_consistent :
    ∀ (reg : List (String × FieldDefinition)) (m : FieldMap), mapConsistent m →
      (∀ p ∈ reg, overrideConsistent (toOverride p.2)) →
      mapConsistent (applyRegistered m reg) := by
  intro reg
  induction reg with
  | nil => intro m hm _; exact hm
  | cons p rest ih =>
      intro m hm hreg
      obtain ⟨k, f⟩ := p
      have hf : overrideConsistent (toOverride f) := hreg (k, f) (by simp)
      have hrest : ∀ q ∈ rest, overrideConsistent (toOverride q.2) :=
        fun q hq => hreg q (List.mem_cons_of_mem _ hq)
      show mapConsistent (applyRegistered
        (match mapLookup m k with
         | some existing => mapSet m k (mergeField existing (toOverride f))
         | none => mapSet m k f) rest)
      cases hl : mapLookup m k with
      | some existing =>
          exact ih _ (mapConsistent_mapSet hm
            (mergeField_consistent (mapConsistent_lookup hm hl) hf)) hrest
      | none =>
          exact ih _ (mapConsistent_mapSet hm
            (fieldConsistent_of_overrideConsistent hf)) hrest

-- Validator lemmas (claims C6 and C7 support)

theorem fieldChecks_bare (n : String) :
    fieldChecks { name := n } = [] := by
  simp [fieldChecks, enumChecks]

theorem validateIssuesGo_bare_length :
    ∀ (names : List String) (seen : Finset String),
      (validateIssuesGo seen (names.map (fun n => ({ name := n } : FieldDefinition)))).length =
        names.length - (names.toFinset \ seen).card := by
  intro names
  induction names with
  | nil => intro seen; simp [validateIssuesGo]
  | cons n rest ih =>
      intro seen
      have hcard : (rest.toFinset \ insert n seen).card ≤ rest.length :=
        le_trans (Finset.card_le_card Finset.sdiff_subset) rest.toFinset_card_le
      have hcard2 : (rest.toFinset \ seen).card ≤ rest.length :=
        le_trans (Finset.card_le_card Finset.sdiff_subset) rest.toFinset_card_le
      show ((if n ∈ seen then [dupMsg n] else []) ++ fieldChecks { name := n } ++
        validateIssuesGo (insert n seen) (rest.map _)).length = _
      rw [fieldChecks_bare]
      by_cases hn : n ∈ seen
      · have hsd : (n :: rest).toFinset \ seen = rest.toFinset \ seen := by
          ext a
          simp only [List.toFinset_cons, Finset.mem_sdiff, Finset.mem_insert]
          constructor
          · rintro ⟨ha | ha, hna⟩
            · exact absurd (ha ▸ hn) hna
            · exact ⟨ha, hna⟩
          · rintro ⟨ha, hna⟩
            exact ⟨Or.inr ha, hna⟩
        have hins : insert n seen = seen := Finset.insert_eq_self.mpr hn
        simp only [if_pos hn, hins, List.length_append, List.length_cons,
          List.length_nil, ih seen, hsd]
        omega
      · have hsd : (n :: rest).toFinset \ seen =
            insert n (rest.toFinset \ seen) := by
          ext a
          simp only [List.toFinset_cons, Finset.mem_sdiff, Finset.mem_insert]
          constructor
          · rintro ⟨ha | ha, hna⟩
            · exact Or.inl ha
            · exact Or.inr ⟨ha, hna⟩
          · rintro (ha | ⟨ha, hna⟩)
            · exact ⟨Or.inl ha, ha ▸ hn⟩
            · exact ⟨Or.inr ha, hna⟩
        have herase : rest.toFinset \ insert n seen =
            (rest.toFinset \ seen).erase n := by
          ext a
          simp only [Finset.mem_sdiff, Finset.mem_insert, Finset.mem_erase]
          tauto
        simp only [if_neg hn, List.nil_append, List.length_append,
          List.length_nil, ih (insert n seen), hsd, herase, List.length_cons]
        by_cases hnX : n ∈ rest.toFinset \ seen
        · rw [Finset.card_insert_of_mem hnX, Finset.card_erase_of_mem hnX]
          have hpos : 1 ≤ (rest.toFinset \ seen).card := Finset.card_pos.mpr ⟨n, hnX⟩
          omega
        · rw [Finset.card_insert_of_not_mem hnX, Finset.erase_eq_of_not_mem hnX]
          omega

theorem mapHtmlTypeToSchemaType_cases (t : Option String) :
    mapHtmlTypeToSchemaType t = "string" ∨ mapHtmlTypeToSchemaType t = "number" ∨
      mapHtmlTypeToSchemaType t = "boolean" := by
  unfold mapHtmlTypeToSchemaType
  split <;> simp

theorem enumValueIssues_eval (nm : String) (st : String) (v : Prim)
    (h : st = "string" ∨ st = "number" ∨ st = "boolean") :
    enumValueIssues nm st v =
      if primTypeName v ≠ st then [enumMsg nm v st] else [] := by
  rcases h with h | h | h <;> subst h <;>
    rcases v with s | n | b <;> simp [enumValueIssues, primTypeName]

theorem flatMap_ite {α β : Type} (p : α → Prop) [DecidablePred p] (g : α → β) :
    ∀ (l : List α),
      (l.flatMap fun v => if p v then [g v] else []) =
        (l.filter (fun v => p v)).map g := by
  intro l
  induction l with
  | nil => rfl
  | cons a rest ih =>
      rw [List.flatMap_cons, List.filter_cons]
      by_cases ha : p a
      · simp [ha, ih]
      · simp [ha, ih]

theorem enumChecks_eq (nm st : String)
    (h : st = "string" ∨ st = "number" ∨ st = "boolean")
    (ev : Option (List Prim)) :
    enumChecks nm st ev =
      ((ev.getD []).filter (fun v => primTypeName v ≠ st)).map
        (fun v => enumMsg nm v st) := by
  cases ev with
  | none => rfl
  | some l =>
      cases l with
      | nil => rfl
      | cons v rest =>
          have hred : enumChecks nm st (some (v :: rest)) =
              (v :: rest).flatMap (enumValueIssues nm st) := by
            simp [enumChecks]
          have hfn : ∀ w ∈ v :: rest, enumValueIssues nm st w =
              (fun w => if primTypeName w ≠ st then [enumMsg nm w st] else []) w :=
            fun w _ => enumValueIssues_eval nm st w h
          rw [hred, List.flatMap_congr hfn, flatMap_ite]
          rfl

-- Extractor lemmas (claims C8 and C5 support)

theorem mkFieldFrom_consistent (nm : String) (ty : Option String)
    (rq : Option Bool) (mi ma mil mal : Option Int) (pat : Option String)
    (opts : List OptionPair) :
    fieldConsistent (mkFieldFrom nm ty rq mi ma mil mal pat opts) := by
  intro l hl
  by_cases ho : opts.length > 0
  · simp only [mkFieldFrom, if_pos ho] at hl ⊢
    cases hl
    rfl
  · simp only [mkFieldFrom, if_neg ho] at hl
    cases hl

theorem extractFieldsC_names :
    ∀ c : Children, ∀ f ∈ extractFieldsC c, f.name ≠ "" := by
  refine extractFieldsC.induct
    (fun c => ∀ f ∈ extractFieldsC c, f.name ≠ "")
    (fun l => ∀ f ∈ extractFieldsL l, f.name ≠ "") ?_ ?_ ?_ ?_ ?_ ?_
  · intro f hf
    simp [extractFieldsC] at hf
  · intro s f hf
    simp [extractFieldsC] at hf
  · intro l ih f hf
    exact ih f hf
  · intro f hf
    simp [extractFieldsL] at hf
  · intro nm ipn sin ty rq mi ma mil mal pat v ch rest ihc ihr f hf
    simp only [extractFieldsL] at hf
    rcases List.mem_append.mp hf with hf | hf
    · cases hns : nm <|> ipn <|> sin with
      | none =>
          rw [hns] at hf
          replace hf : f ∈ (if childrenTruthy ch then extractFieldsC ch else []) := hf
          split at hf
          · exact ihc f hf
          · simp at hf
      | some s =>
          rw [hns] at hf
          replace hf : f ∈ (if s = "" then
              (if childrenTruthy ch then extractFieldsC ch else [])
              else [mkFieldFrom s ty rq mi ma mil mal pat
                (if childrenTruthy ch then extractOptionsC ch else [])]) := hf
          by_cases hs : s = ""
          · rw [if_pos hs] at hf
            split at hf
            · exact ihc f hf
            · simp at hf
          · rw [if_neg hs] at hf
            rw [List.mem_singleton] at hf
            subst hf
            exact hs
    · exact ihr f hf
  · intro head rest hne ihr f hf
    cases head with
    | element nm ipn sin ty rq mi ma mil mal pat v ch =>
        exact (hne nm ipn sin ty rq mi ma mil mal pat v ch rfl).elim
    | text s =>
        simp only [extractFieldsL] at hf
        exact ihr f hf
    | nullNode =>
        simp only [extractFieldsL] at hf
        exact ihr f hf

theorem extractFieldsC_consistent :
    ∀ c : Children, ∀ f ∈ extractFieldsC c, fieldConsistent f := by
  refine extractFieldsC.induct
    (fun c => ∀ f ∈ extractFieldsC c, fieldConsistent f)
    (fun l => ∀ f ∈ extractFieldsL l, fieldConsistent f) ?_ ?_ ?_ ?_ ?_ ?_
  · intro f hf
    simp [extractFieldsC] at hf
  · intro s f hf
    simp [extractFieldsC] at hf
  · intro l ih f hf
    exact ih f hf
  · intro f hf
    simp [extractFieldsL] at hf
  · intro nm ipn sin ty rq mi ma mil mal pat v ch rest ihc ihr f hf
    simp only [extractFieldsL] at hf
    rcases List.mem_append.mp hf with hf | hf
    · cases hns : nm <|> ipn <|> sin with
      | none =>
          rw [hns] at hf
          replace hf : f ∈ (if childrenTruthy ch then extractFieldsC ch else []) := hf
          split at hf
          · exact ihc f hf
          · simp at hf
      | some s =>
          rw [hns] at hf
          replace hf : f ∈ (if s = "" then
              (if childrenTruthy ch then extractFieldsC ch else [])
              else [mkFieldFrom s ty rq mi ma mil mal pat
                (if childrenTruthy ch then extractOptionsC ch else [])]) := hf
          by_cases hs : s = ""
          · rw [if_pos hs] at hf
            split at hf
            · exact ihc f hf
            · simp at hf
          · rw [if_neg hs] at hf
            rw [List.mem_singleton] at hf
            subst hf
            exact mkFieldFrom_consistent s ty rq mi ma mil mal pat _
    · exact ihr f hf
  · intro head rest hne ihr f hf
    cases head with
    | element nm ipn sin ty rq mi ma mil mal pat v ch =>
        exact (hne nm ipn sin ty rq mi ma mil mal pat v ch rfl).elim
    | text s =>
        simp only [extractFieldsL] at hf
        exact ihr f hf
    | nullNode =>
        simp only [extractFieldsL] at hf
        exact ihr f hf

theorem extractFieldsC_falsy {ch : Children} (h : childrenTruthy ch = false) :
    extractFieldsC ch = [] := by
  cases ch with
  | cnone => rfl
  | cstr s => rfl
  | cnodes l => simp [childrenTruthy] at h

theorem extractFieldsL_append :
    ∀ (l1 l2 : List RNode),
      extractFieldsL (l1 ++ l2) = extractFieldsL l1 ++ extractFieldsL l2 := by
  intro l1
  induction l1 with
  | nil => intro l2; rfl
  | cons head rest ih =>
      intro l2
      cases head with
      | element nm ipn sin ty rq mi ma mil mal pat v ch =>
          show (match nm <|> ipn <|> sin with
                | some s => _
                | none => _) ++ extractFieldsL (rest ++ l2) = _
          rw [ih l2]
          simp only [extractFieldsL]
          rw [List.append_assoc]
      | text s =>
          show extractFieldsL (rest ++ l2) = _
          rw [ih l2]
          rfl
      | nullNode =>
          show extractFieldsL (rest ++ l2) = _
          rw [ih l2]
          rfl

-- Compiler property-entry lemmas (claim C10 support)

theorem truthyStr_eq_none_iff (o : Option String) :
    truthyStr o = none ↔ o = none ∨ o = some "" := by
  cases o with
  | none => simp [truthyStr]
  | some s =>
      by_cases hs : s = "" <;> simp [truthyStr, hs]

theorem truthyStr_of_ne (o : Option String) (s : String) (h : o = some s)
    (hne : s ≠ "") : truthyStr o = some s := by
  subst h
  simp [truthyStr, hne]

theorem nonEmptyList_eq_none_iff {α : Type} (o : Option (List α)) :
    nonEmptyList o = none ↔ o = none ∨ o = some [] := by
  cases o with
  | none => simp [nonEmptyList]
  | some l => cases l <;> simp [nonEmptyList]

theorem nonEmptyList_of_ne {α : Type} (o : Option (List α)) (l : List α)
    (h : o = some l) (hne : l ≠ []) : nonEmptyList o = some l := by
  subst h
  cases l with
  | nil => exact absurd rfl hne
  | cons a rest => simp [nonEmptyList]

-- ===========================================================================
-- Claims
-- ===========================================================================

/-- Claim C1: for every name present in all three sources, the merged field
carries each attribute from the registered field whenever set, falling back
to the override map's defined attributes and then to the tree-extracted
field's; and the merged map contains exactly the union of the three
sources' names. -/
theorem c1_merge_precedence_and_union
    (tree : List FieldDefinition) (ov : List (String × FieldOverride))
    (reg : List (String × FieldDefinition)) (n : String)
    (tf : FieldDefinition) (o : FieldOverride) (rf : FieldDefinition)
    (htf : tf ∈ tree) (htfn : tf.name = n)
    (htree : (tree.map FieldDefinition.name).Nodup)
    (ho : (n, o) ∈ ov) (hov : (ov.map Prod.fst).Nodup)
    (hr : (n, rf) ∈ reg) (hreg : (reg.map Prod.fst).Nodup)
    (hrn : rf.name = n) :
    (∃ m, mapLookup (computeMerged tree ov reg) n = some m ∧
      m.name = n ∧
      m.type = (rf.type <|> o.type <|> tf.type) ∧
      m.required = (rf.required <|> o.required <|> tf.required) ∧
      m.title = (rf.title <|> o.title <|> tf.title) ∧
      m.description = (rf.description <|> o.description <|> tf.description) ∧
      m.min = (rf.min <|> o.min <|> tf.min) ∧
      m.max = (rf.max <|> o.max <|> tf.max) ∧
      m.minLength = (rf.minLength <|> o.minLength <|> tf.minLength) ∧
      m.maxLength = (rf.maxLength <|> o.maxLength <|> tf.maxLength) ∧
      m.pattern = (rf.pattern <|> o.pattern <|> tf.pattern) ∧
      m.enumValues = (rf.enumValues <|> o.enumValues <|> tf.enumValues) ∧
      m.oneOf = (rf.oneOf <|> o.oneOf <|> tf.oneOf)) ∧
    (∀ k, mapLookup (computeMerged tree ov reg) k ≠ none ↔
      (∃ f ∈ tree, f.name = k) ∨ (∃ q, (k, q) ∈ ov) ∨ (∃ g, (k, g) ∈ reg)) := by
  constructor
  · have h1 : mapLookup (insertTreeFields [] tree) n = some tf :=
      insertTreeFields_lookup_mem tree [] htf htfn htree
    have h2 : mapLookup (applyOverrides (insertTreeFields [] tree) ov) n =
        some (mergeField tf o) := by
      rw [applyOverrides_lookup_mem ov _ ho hov, h1]
    have h3 : mapLookup (computeMerged tree ov reg) n =
        some (mergeField (mergeField tf o) (toOverride rf)) := by
      show mapLookup (applyRegistered _ reg) n = _
      rw [applyRegistered_lookup_mem reg _ hr hreg, h2]
    refine ⟨_, h3, ?_, rfl, rfl, rfl, rfl, rfl, rfl, rfl, rfl, rfl, rfl, rfl⟩
    exact hrn
  · intro k
    show mapLookup (applyRegistered (applyOverrides (insertTreeFields [] tree) ov) reg) k
      ≠ none ↔ _
    rw [applyRegistered_ne_none, applyOverrides_ne_none, insertTreeFields_ne_none]
    have hnil : mapLookup ([] : FieldMap) k ≠ none ↔ False := by
      simp [mapLookup]
    rw [hnil, or_false]
    constructor
    · rintro (⟨g, hg⟩ | ⟨q, hq⟩ | ⟨f2, hf2, hn2⟩)
      · exact Or.inr (Or.inr ⟨g, hg⟩)
      · exact Or.inr (Or.inl ⟨q, hq⟩)
      · exact Or.inl ⟨f2, hf2, hn2⟩
    · rintro (⟨f2, hf2, hn2⟩ | ⟨q, hq⟩ | ⟨g, hg⟩)
      · exact Or.inr (Or.inr ⟨f2, hf2, hn2⟩)
      · exact Or.inr (Or.inl ⟨q, hq⟩)
      · exact Or.inl ⟨g, hg⟩

theorem c1_witness :
    mapLookup (computeMerged
      [{ name := "email", type := some "email" }]
      [("email", { description := some "Recipient" })]
      [("email", { name := "email", description := some "Context override" })]) "email"
      ≠ none ↔
    ((∃ f ∈ [({ name := "email", type := some "email" } : FieldDefinition)],
        f.name = "email") ∨
      (∃ q, ("email", q) ∈
        [("email", ({ description := some "Recipient" } : FieldOverride))]) ∨
      (∃ g, ("email", g) ∈
        [("email", ({ name := "email", description := some "Context override" } :
          FieldDefinition))])) :=
  (c1_merge_precedence_and_union _ _ _ "email"
    { name := "email", type := some "email" }
    { description := some "Recipient" }
    { name := "email", description := some "Context override" }
    (by decide) (by decide) (by decide) (by decide) (by decide)
    (by decide) (by decide) (by decide)).2 "email"

/-- Claim C2 counterexample: the two lists are permutations of each other,
yet the compiled schemas serialize differently, because a duplicate name
makes the later field win the single properties slot and the stable sort
preserves relative order of equal names. -/
theorem c2_counterexample :
    ([({ name := "a", title := some "x" } : FieldDefinition),
      { name := "a", title := some "y" }].Perm
     [({ name := "a", title := some "y" } : FieldDefinition),
      { name := "a", title := some "x" }]) ∧
    serializeSchema (buildInputSchema
      [{ name := "a", title := some "x" }, { name := "a", title := some "y" }]) ≠
    serializeSchema (buildInputSchema
      [{ name := "a", title := some "y" }, { name := "a", title := some "x" }]) :=
  ⟨List.Perm.swap _ _ _, by decide⟩

/-- Claim C2 amended: for field lists with pairwise-distinct names,
compiling any permutation yields the same schema value, hence byte-identical
serialized output, and the properties map is keyed in alphabetical order. -/
theorem c2_permutation_determinism (l1 l2 : List FieldDefinition)
    (hp : l1.Perm l2) (hnd : (l1.map FieldDefinition.name).Nodup) :
    buildInputSchema l1 = buildInputSchema l2 ∧
    serializeSchema (buildInputSchema l1) = serializeSchema (buildInputSchema l2) ∧
    List.Sorted (· ≤ ·) ((buildInputSchema l1).properties.map Prod.fst) := by
  have hs : sortFields l1 = sortFields l2 := sortFields_eq_of_perm hp hnd
  have heq : buildInputSchema l1 = buildInputSchema l2 := by
    unfold buildInputSchema
    rw [hs]
  refine ⟨heq, by rw [heq], ?_⟩
  rw [buildInputSchema_properties_eq l1 hnd]
  have hmm : ((sortFields l1).map (fun f => (f.name, buildProp f))).map Prod.fst =
      (sortFields l1).map FieldDefinition.name := by
    simp
  rw [hmm]
  exact sortFields_sorted_names l1

theorem c2_witness :
    buildInputSchema [({ name := "zebra" } : FieldDefinition), { name := "apple" },
      { name := "mango" }] =
    buildInputSchema [({ name := "mango" } : FieldDefinition), { name := "apple" },
      { name := "zebra" }] :=
  (c2_permutation_determinism _ _ (by decide) (by decide)).1

/-- Claim C3 counterexample: the fingerprint template joins attributes with
an unescaped "::" separator, so two fields (and the singleton lists built
from them) differing in tracked attributes collide. -/
theorem c3_counterexample :
    fieldFingerprint { name := "n", title := some "x::", description := some "y" } =
      fieldFingerprint { name := "n", title := some "x", description := some "::y" } ∧
    fieldsFingerprint [{ name := "n", title := some "x::", description := some "y" }] =
      fieldsFingerprint [{ name := "n", title := some "x", description := some "::y" }] ∧
    (({ name := "n", title := some "x::", description := some "y" } : FieldDefinition) ≠
      { name := "n", title := some "x", description := some "::y" }) :=
  ⟨by decide, by decide, by decide⟩

/-- Claim C3 amended: deep equality of all tracked attributes implies
fingerprint equality (the fingerprint is a pure function of the attribute
values, so object identity plays no role), but the converse fails because
the "::" separator is not escaped. -/
theorem c3_fingerprint_of_attrs (f g : FieldDefinition)
    (h1 : f.name = g.name) (h2 : f.type = g.type) (h3 : f.required = g.required)
    (h4 : f.title = g.title) (h5 : f.description = g.description)
    (h6 : f.enumValues = g.enumValues) (h7 : f.oneOf = g.oneOf)
    (h8 : f.min = g.min) (h9 : f.max = g.max) (h10 : f.minLength = g.minLength)
    (h11 : f.maxLength = g.maxLength) (h12 : f.pattern = g.pattern) :
    fieldFingerprint f = fieldFingerprint g ∧
    fieldsFingerprint [f] = fieldsFingerprint [g] := by
  have heq : f = g := by
    cases f
    cases g
    simp_all
  rw [heq]
  exact ⟨rfl, rfl⟩

theorem c3_witness :
    fieldFingerprint
      { name := "priority", enumValues := some [Prim.str "low"],
        oneOf := some [OptionPair.mk (Prim.str "low") "Low"] } =
    fieldFingerprint
      { name := "priority", enumValues := some [Prim.str "low"],
        oneOf := some [OptionPair.mk (Prim.str "low") "Low"] } :=
  (c3_fingerprint_of_attrs _ _ rfl rfl rfl rfl rfl rfl rfl rfl rfl rfl rfl rfl).1

/-- Claim C4 counterexample: the merged useMemo keys on the fields-prop
reference, not its fingerprint: with the children fingerprint, the version
counter, the strict flag and the override content all unchanged, a fresh
reference alone makes the memo recompute (flag true), producing the very
same value. -/
theorem c4_counterexample :
    useMemoStep
      (some
        ({ childrenFP := fieldsFingerprint [], fieldsPropRef := 0,
           version := 0, strict := false },
         mergedFields [] [("a", { description := some "Recipient" })] []))
      { childrenFP := fieldsFingerprint [], fieldsPropRef := 1,
        version := 0, strict := false }
      (fun _ => mergedFields [] [("a", { description := some "Recipient" })] []) =
      (({ childrenFP := fieldsFingerprint [], fieldsPropRef := 1,
          version := 0, strict := false },
        mergedFields [] [("a", { description := some "Recipient" })] []), true) := by
  decide

/-- Claim C4 amended: recomputation is skipped exactly when the dependency
tuple (children fingerprint, fields-prop reference, registration version
counter, strict flag) is unchanged, in which case the cached value is
returned unchanged; any change in the tuple reruns the factory. -/
theorem c4_memo_gating {α : Type} (d dp : CollectorDeps) (v : α)
    (factory : Unit → α) :
    (d = dp → useMemoStep (some (d, v)) dp factory = ((d, v), false)) ∧
    (d ≠ dp → useMemoStep (some (d, v)) dp factory = ((dp, factory ()), true)) := by
  constructor
  · intro h
    subst h
    simp [useMemoStep]
  · intro h
    simp [useMemoStep, h]

theorem c4_witness :
    useMemoStep
      (some
        ({ childrenFP := "", fieldsPropRef := 0, version := 0, strict := false },
         mergedFields [] [] []))
      { childrenFP := "", fieldsPropRef := 0, version := 0, strict := false }
      (fun _ => mergedFields [] [] []) =
      (({ childrenFP := "", fieldsPropRef := 0, version := 0, strict := false },
        mergedFields [] [] []), false) :=
  (c4_memo_gating _ _ _ _).1 rfl

/-- Claim C5 counterexample: an override that sets oneOf without enumValues
produces a merged field carrying oneOf with no matching enumValues, so the
coupling invariant fails on merge output in general. -/
theorem c5_counterexample :
    mergedFields [] [("a", { oneOf := some [OptionPair.mk (Prim.str "v") "l"] })] [] =
      [{ name := "a", oneOf := some [OptionPair.mk (Prim.str "v") "l"] }] ∧
    ¬ fieldConsistent { name := "a", oneOf := some [OptionPair.mk (Prim.str "v") "l"] } := by
  refine ⟨by decide, ?_⟩
  intro h
  have hx := h [OptionPair.mk (Prim.str "v") "l"] rfl
  exact Option.noConfusion hx

/-- Claim C5 amended: every field emitted by the tree extractor satisfies
the oneOf/enumValues coupling, and the merge preserves it provided every
override and every registered field either sets oneOf and enumValues
together consistently or sets neither; a partial override violates it. -/
theorem c5_oneof_enum_coupling :
    (∀ c : Children, ∀ f ∈ extractFieldsC c, fieldConsistent f) ∧
    (∀ (tree : List FieldDefinition) (ov : List (String × FieldOverride))
        (reg : List (String × FieldDefinition)),
      (∀ f ∈ tree, fieldConsistent f) →
      (∀ p ∈ ov, overrideConsistent p.2) →
      (∀ p ∈ reg, overrideConsistent (toOverride p.2)) →
      ∀ f ∈ mergedFields tree ov reg, fieldConsistent f) := by
  refine ⟨extractFieldsC_consistent, ?_⟩
  intro tree ov reg h1 h2 h3 f hf
  obtain ⟨p, hp, rfl⟩ := List.mem_map.mp hf
  exact applyRegistered_consistent reg _
    (applyOverrides_consistent ov _
      (insertTreeFields_consistent tree [] (fun q hq => absurd hq (List.not_mem_nil q)) h1)
      h2)
    h3 p hp

theorem c5_witness :
    fieldConsistent
      ({ name := "priority",
         enumValues := some [Prim.str "low", Prim.str "high"],
         oneOf := some [OptionPair.mk (Prim.str "low") "Low",
           OptionPair.mk (Prim.str "high") "High"] } : FieldDefinition) :=
  c5_oneof_enum_coupling.2
    [{ name := "priority",
       enumValues := some [Prim.str "low", Prim.str "high"],
       oneOf := some [OptionPair.mk (Prim.str "low") "Low",
         OptionPair.mk (Prim.str "high") "High"] }] [] []
    (by
      intro f hf
      rw [List.mem_singleton] at hf
      subst hf
      intro l hl
      cases hl
      rfl)
    (fun p hp => absurd hp (List.not_mem_nil p))
    (fun p hp => absurd hp (List.not_mem_nil p))
    _ (by decide)

/-- Claim C6: a repeated name yields exactly one duplicate issue per repeat
after the first occurrence (exactly one for the email/email pair); in
strict mode validateSchema raises on the first accumulated issue with the
fixed library tag, and otherwise it emits every issue as a warning and
returns normally. -/
theorem c6_validator_duplicates_and_reporting :
    validateIssues [{ name := "email" }, { name := "email" }] =
      ["Duplicate field name \"email\"."] ∧
    validateSchema false [{ name := "email" }, { name := "email" }] true =
      ValidateResult.err "[react-webmcp] Duplicate field name \"email\"." ∧
    (∀ names : List String,
      (validateIssues (names.map (fun n => ({ name := n } : FieldDefinition)))).length =
        names.length - names.toFinset.card) ∧
    (∀ (fields : List FieldDefinition) (i : String) (rest : List String),
      validateIssues fields = i :: rest →
      validateSchema false fields true = ValidateResult.err ("[react-webmcp] " ++ i)) ∧
    (∀ fields : List FieldDefinition,
      validateSchema false fields false =
        ValidateResult.ok ((validateIssues fields).map
          (fun i => "[react-webmcp] " ++ i))) := by
  refine ⟨by decide, by decide, ?_, ?_, ?_⟩
  · intro names
    have h := validateIssuesGo_bare_length names ∅
    simpa using h
  · intro fields i rest h
    simp [validateSchema, h]
  · intro fields
    simp [validateSchema]

theorem c6_witness :
    validateSchema false
      [({ name := "a" } : FieldDefinition), { name := "a" }, { name := "a" }] false =
    ValidateResult.ok ((validateIssues
      [({ name := "a" } : FieldDefinition), { name := "a" }, { name := "a" }]).map
        (fun i => "[react-webmcp] " ++ i)) :=
  (c6_validator_duplicates_and_reporting.2.2.2.2)
    [{ name := "a" }, { name := "a" }, { name := "a" }]

/-- Claim C7: the number/string enum mismatch example yields exactly two
issues, each naming the offending literal; in general the enum scan emits
exactly one issue per enum value whose typeof differs from the compiled
type, phrased with the JSON literal and the would-be type. -/
theorem c7_enum_type_mismatch :
    validateIssues
      [{ name := "count", type := some "number",
         enumValues := some [Prim.str "one", Prim.str "two"] }] =
      ["Field \"count\": enum value \"one\" is not a number.",
       "Field \"count\": enum value \"two\" is not a number."] ∧
    (∀ f : FieldDefinition,
      enumChecks f.name (mapHtmlTypeToSchemaType f.type) f.enumValues =
        ((f.enumValues.getD []).filter
          (fun v => primTypeName v ≠ mapHtmlTypeToSchemaType f.type)).map
          (fun v => enumMsg f.name v (mapHtmlTypeToSchemaType f.type))) := by
  refine ⟨by decide, ?_⟩
  intro f
  exact enumChecks_eq f.name _ (mapHtmlTypeToSchemaType_cases f.type) f.enumValues

/-- Claim C8: a node whose property bag yields a truthy name through the
nullish chain (direct name, then inputProps.name, then
slotProps.input.name) emits exactly one field and is not recursed into; a
node with a falsy name contributes exactly its children's fields;
extraction distributes over sibling lists left to right (depth-first
pre-order); and every emitted field has a non-empty name. -/
theorem c8_extract_traversal :
    (∀ (nm ipn sin ty : Option String) (rq : Option Bool)
        (mi ma mil mal : Option Int) (pat : Option String) (v : Option Prim)
        (ch : Children) (s : String),
      (nm <|> ipn <|> sin) = some s → s ≠ "" →
      extractFieldsL [RNode.element nm ipn sin ty rq mi ma mil mal pat v ch] =
        [mkFieldFrom s ty rq mi ma mil mal pat
          (if childrenTruthy ch then extractOptionsC ch else [])]) ∧
    (∀ (nm ipn sin ty : Option String) (rq : Option Bool)
        (mi ma mil mal : Option Int) (pat : Option String) (v : Option Prim)
        (ch : Children),
      ((nm <|> ipn <|> sin) = none ∨ (nm <|> ipn <|> sin) = some "") →
      extractFieldsL [RNode.element nm ipn sin ty rq mi ma mil mal pat v ch] =
        extractFieldsC ch) ∧
    (∀ l1 l2 : List RNode,
      extractFieldsL (l1 ++ l2) = extractFieldsL l1 ++ extractFieldsL l2) ∧
    (∀ c : Children, ∀ f ∈ extractFieldsC c, f.name ≠ "") := by
  refine ⟨?_, ?_, extractFieldsL_append, extractFieldsC_names⟩
  · intro nm ipn sin ty rq mi ma mil mal pat v ch s h hs
    simp only [extractFieldsL]
    rw [h]
    simp [hs]
  · intro nm ipn sin ty rq mi ma mil mal pat v ch h
    rcases h with h | h
    · simp only [extractFieldsL]
      rw [h]
      cases hct : childrenTruthy ch
      · rw [extractFieldsC_falsy hct]
        simp [hct]
      · simp [hct]
    · simp only [extractFieldsL]
      rw [h]
      cases hct : childrenTruthy ch
      · rw [extractFieldsC_falsy hct]
        simp [hct]
      · simp [hct]

theorem c8_witness :
    extractFieldsL [RNode.element (some "email") none none (some "email")
        (some true) none none none none none none Children.cnone] =
      [mkFieldFrom "email" (some "email") (some true) none none none none none
        (if childrenTruthy Children.cnone then extractOptionsC Children.cnone else [])] :=
  c8_extract_traversal.1 (some "email") none none (some "email") (some true)
    none none none none none none Children.cnone "email" rfl (by decide)

/-- Claim C9: the empty field list compiles to a bare object schema with no
required key; in general the required key is present exactly when some
field has required set to true, and the required array is sorted. -/
theorem c9_empty_and_required :
    buildInputSchema [] =
      { type := "object", properties := [], required := none } ∧
    (∀ fields : List FieldDefinition,
      ((buildInputSchema fields).required ≠ none ↔
        ∃ f ∈ fields, f.required = some true)) ∧
    (∀ (fields : List FieldDefinition) (l : List String),
      (buildInputSchema fields).required = some l → List.Sorted (· ≤ ·) l) := by
  refine ⟨by decide, ?_, ?_⟩
  · intro fields
    have hred : (buildInputSchema fields).required =
        (if (((sortFields fields).filter (fun f => f.required = some true)).map
            (fun f => f.name)).length > 0
         then some (sortStrings (((sortFields fields).filter
             (fun f => f.required = some true)).map (fun f => f.name)))
         else none) := rfl
    rw [hred]
    have hiff : (((sortFields fields).filter (fun f => f.required = some true)).map
        (fun f => f.name)).length > 0 ↔ ∃ f ∈ fields, f.required = some true := by
      constructor
      · intro hlen
        obtain ⟨x, hx⟩ := List.exists_mem_of_length_pos hlen
        obtain ⟨f, hf, _⟩ := List.mem_map.mp hx
        have hmem := List.mem_filter.mp hf
        exact ⟨f, (sortFields_perm fields).mem_iff.mp hmem.1, of_decide_eq_true hmem.2⟩
      · rintro ⟨f, hf, hreq⟩
        have hf2 : f ∈ sortFields fields := (sortFields_perm fields).mem_iff.mpr hf
        have hmem : f.name ∈ ((sortFields fields).filter
            (fun f => f.required = some true)).map (fun f => f.name) :=
          List.mem_map_of_mem _ (List.mem_filter.mpr ⟨hf2, by simp [hreq]⟩)
        exact List.length_pos.mpr (List.ne_nil_of_mem hmem)
    by_cases hlen : (((sortFields fields).filter (fun f => f.required = some true)).map
        (fun f => f.name)).length > 0
    · simp only [if_pos hlen]
      constructor
      · intro _
        exact hiff.mp hlen
      · intro _
        exact Option.some_ne_none _
    · simp only [if_neg hlen]
      constructor
      · intro hcon
        exact absurd rfl hcon
      · intro hex
        exact absurd (hiff.mpr hex) hlen
  · intro fields l h
    have hred : (buildInputSchema fields).required =
        (if (((sortFields fields).filter (fun f => f.required = some true)).map
            (fun f => f.name)).length > 0
         then some (sortStrings (((sortFields fields).filter
             (fun f => f.required = some true)).map (fun f => f.name)))
         else none) := rfl
    rw [hred] at h
    by_cases hlen : (((sortFields fields).filter (fun f => f.required = some true)).map
        (fun f => f.name)).length > 0
    · rw [if_pos hlen] at h
      rw [← Option.some.inj h]
      exact sortStrings_sorted _
    · rw [if_neg hlen] at h
      cases h

theorem c9_witness :
    List.Sorted (· ≤ ·) ["age", "email"] :=
  (c9_empty_and_required.2.2)
    [{ name := "email", required := some true },
     { name := "age", required := some true }] ["age", "email"] (by decide)

/-- Claim C10: the compiled property entry omits title, description and
pattern exactly when they are unset or the empty string, omits enum and
oneOf exactly when they are unset or empty arrays, and copies min, max,
minLength and maxLength whenever they are defined, including 0. -/
theorem c10_property_omission (f : FieldDefinition) :
    ((buildProp f).title = none ↔ f.title = none ∨ f.title = some "") ∧
    (∀ s, f.title = some s → s ≠ "" → (buildProp f).title = some s) ∧
    ((buildProp f).description = none ↔
      f.description = none ∨ f.description = some "") ∧
    (∀ s, f.description = some s → s ≠ "" → (buildProp f).description = some s) ∧
    ((buildProp f).pattern = none ↔ f.pattern = none ∨ f.pattern = some "") ∧
    (∀ s, f.pattern = some s → s ≠ "" → (buildProp f).pattern = some s) ∧
    ((buildProp f).enum = none ↔ f.enumValues = none ∨ f.enumValues = some []) ∧
    (∀ l, f.enumValues = some l → l ≠ [] → (buildProp f).enum = some l) ∧
    ((buildProp f).oneOf = none ↔ f.oneOf = none ∨ f.oneOf = some []) ∧
    (∀ l, f.oneOf = some l → l ≠ [] → (buildProp f).oneOf =
      some (l.map (fun o => ConstTitle.mk o.value o.label))) ∧
    (buildProp f).minimum = f.min ∧ (buildProp f).maximum = f.max ∧
    (buildProp f).minLength = f.minLength ∧ (buildProp f).maxLength = f.maxLength := by
  refine ⟨truthyStr_eq_none_iff f.title,
    fun s h hs => truthyStr_of_ne f.title s h hs,
    truthyStr_eq_none_iff f.description,
    fun s h hs => truthyStr_of_ne f.description s h hs,
    truthyStr_eq_none_iff f.pattern,
    fun s h hs => truthyStr_of_ne f.pattern s h hs,
    nonEmptyList_eq_none_iff f.enumValues,
    fun l h hl => nonEmptyList_of_ne f.enumValues l h hl,
    ?_, ?_, rfl, rfl, rfl, rfl⟩
  · show (nonEmptyList f.oneOf).map _ = none ↔ _
    rw [Option.map_eq_none']
    exact nonEmptyList_eq_none_iff f.oneOf
  · intro l h hl
    show (nonEmptyList f.oneOf).map _ = _
    rw [nonEmptyList_of_ne f.oneOf l h hl]
    rfl

theorem c10_witness :
    (buildProp { name := "a", title := some "T", min := some 0 }).title = some "T" ∧
    (buildProp { name := "a", title := some "T", min := some 0 }).minimum = some 0 :=
  ⟨(c10_property_omission { name := "a", title := some "T", min := some 0 }).2.1
      "T" rfl (by decide),
    (c10_property_omission { name := "a", title := some "T", min := some 0
      }).2.2.2.2.2.2.2.2.2.2.1⟩

end ReactWebMCP
